import Mathlib

/-!
Verification of the Rue Organics order-lifecycle and pricing code.

The definitions below are a shallow embedding of the TypeScript source:

* `getUnitPrice` embeds the identical helper in `src/pages/Cart.tsx`
  (lines 29-35) and `src/pages/Checkout.tsx` (lines 67-73).
* `parsePriceToNumber` embeds the price parser of
  `src/pages/ProductDetail.tsx` (lines 64-71); `removeFirst` models the
  JavaScript string `replace` of the first occurrence of a pattern,
  `List.filter isDigitOrDot` models `replace` with the regex removing every
  non-digit, non-dot character, and `parseFloatQ` models `parseFloat` on the
  already-cleaned strings (digits and dots only), returning `none` for NaN.
  Numbers are modelled as exact rationals.
* The stage data model and parser embed the `queryFn` stage handling of
  `src/pages/TrackOrder.tsx` (lines 131-176); `advanceStage` and
  `confirmReceipt` embed the operations at lines 218-240 and 242-263, where
  the produced Supabase update is modelled as an explicit `UpdateReq`.
* `deliveryStages` embeds the stage payload written by `handlePlaceOrder`
  in `src/pages/Checkout.tsx` (lines 139-153).
* `queryFn`, `storeUpdate`, `attemptAdvance` and `attemptConfirm` model the
  fetch-then-mutate flow of `TrackOrder.tsx`, including the ownership check
  at lines 90-93 and the `.eq user_id` conditional update.

JavaScript truthiness of optional strings (where the empty string is falsy)
is modelled by `jsOrStr` and `jsTruthy`.
-/

/-! ## PriceResolver -/

/-- A quantity-discount tier, `{ min_quantity, price }` in the source. -/
structure PricingTier where
  min_quantity : ℤ
  price : ℚ
  deriving Repr, DecidableEq

/-- The fields of a cart item that `getUnitPrice` reads: base `price`,
`quantity`, and the optional `pricing_tiers` array. -/
structure CartItem where
  price : ℚ
  quantity : ℤ
  pricing_tiers : Option (List PricingTier)
  deriving Repr, DecidableEq

/-- `getUnitPrice` from `Cart.tsx` / `Checkout.tsx`: if there are no tiers,
return the base price; otherwise `find` the first tier (in array order) with
`quantity >= min_quantity`, returning its price, or the base price when no
tier qualifies. -/
def getUnitPrice (item : CartItem) : ℚ :=
  match item.pricing_tiers with
  | none => item.price
  | some tiers =>
    if tiers.length = 0 then item.price
    else
      match tiers.find? (fun t => decide (t.min_quantity ≤ item.quantity)) with
      | some tier => tier.price
      | none => item.price

/-- A raw product price as it arrives from the database: a number, a
free-form string, or absent. -/
inductive PriceInput where
  | num (q : ℚ)
  | str (s : String)
  | undef
  deriving Repr, DecidableEq

/-- Character class kept by the cleaning regex `[^\x5cd.]` replacement:
digits and the decimal point. -/
def isDigitOrDot (c : Char) : Bool :=
  c.isDigit || c = '.'

/-- Whether `pat` is a prefix of `l` (used to locate a substring). -/
def matchesAt : List Char → List Char → Bool
  | [], _ => true
  | _ :: _, [] => false
  | p :: ps, c :: cs => p = c && matchesAt ps cs

/-- JavaScript `String.replace` with a plain-string pattern and empty
replacement: removes the first occurrence of `pat`, if any. -/
def removeFirst (pat : List Char) : List Char → List Char
  | [] => []
  | c :: rest =>
    if matchesAt pat (c :: rest) then (c :: rest).drop pat.length
    else c :: removeFirst pat rest

/-- Decimal value of a digit list. -/
def digitsToNat (cs : List Char) : ℕ :=
  cs.foldl (fun acc c => acc * 10 + (c.toNat - 48)) 0

/-- `parseFloat` restricted to strings containing only digits and dots (the
shape produced by the cleaning step): leading digits, an optional dot, then
fractional digits; anything after a second dot is ignored, exactly as
`parseFloat` stops at the first character that cannot extend the number.
`none` models NaN (no digit was consumed). -/
def parseFloatQ (cs : List Char) : Option ℚ :=
  let intPart := cs.takeWhile Char.isDigit
  let rest := cs.dropWhile Char.isDigit
  let fracPart :=
    match rest with
    | '.' :: rest2 => rest2.takeWhile Char.isDigit
    | _ => []
  if intPart = [] ∧ fracPart = [] then none
  else some ((digitsToNat intPart : ℚ) + (digitsToNat fracPart : ℚ) / (10 : ℚ) ^ fracPart.length)

/-- `parsePriceToNumber` from `ProductDetail.tsx`: numbers pass through,
absent prices are 0, and strings are cleaned (drop a literal `KES ` prefix
occurrence, then every non-digit non-dot character) and fed to `parseFloat`,
with NaN collapsed to 0 by the trailing `|| 0`. -/
def parsePriceToNumber : PriceInput → ℚ
  | .undef => 0
  | .num q => q
  | .str s =>
    (parseFloatQ ((removeFirst "KES ".data s.data).filter isDigitOrDot)).getD 0

example : getUnitPrice ⟨100, 10, some [⟨5, 90⟩, ⟨10, 80⟩]⟩ = 90 := rfl
example : getUnitPrice ⟨100, 1, some [⟨5, 90⟩, ⟨10, 80⟩]⟩ = 100 := rfl
example : parsePriceToNumber (PriceInput.str "n/a") = 0 := rfl
example : parsePriceToNumber (PriceInput.str "KES 1,200.50") =
    ((1200 : ℕ) : ℚ) + ((50 : ℕ) : ℚ) / (10 : ℚ) ^ 2 := rfl

/-! ## StageParser -/

/-- A canonical workflow stage, `{ name, timestamp, completed }`; a missing
timestamp is normalized to the empty string by the parser. -/
structure Stage where
  name : String
  timestamp : String
  completed : Bool
  deriving Repr, DecidableEq, Inhabited

/-- One decoded entry of the raw `stages` JSON value: an arbitrary object
whose relevant fields may each be absent. `completed` holds the JavaScript
truthiness of the raw field (the source coerces it with a double negation). -/
structure RawStage where
  name : Option String
  stage : Option String
  completed : Bool
  timestamp : Option String
  address : Option String
  instructions : Option String
  status : Option String
  deriving Repr, DecidableEq

/-- The persisted `stages` column as seen by `queryFn`: absent (null or
empty, which the source replaces by the literal string of an empty array
before decoding), malformed (JSON.parse throws), or decoded into a list of
loosely-typed entries. -/
inductive RawStagesField where
  | absent
  | malformed
  | decoded (entries : List RawStage)
  deriving Repr, DecidableEq

/-- JavaScript `a || b` on an optional string `a`: the empty string is falsy,
so it falls through to `b` exactly like an absent value. -/
def jsOrStr (a : Option String) (b : String) : String :=
  match a with
  | none => b
  | some s => if s = "" then b else s

/-- JavaScript truthiness of an optional string, as used by the predicate
`s => s.address` in the source. -/
def jsTruthy : Option String → Bool
  | none => false
  | some s => s != ""

/-- The normalization map applied to every parsed entry:
`name: s.name || s.stage || 'Unknown'`, `timestamp: s.timestamp || ''`,
`completed: !!s.completed`. -/
def normalizeStage (s : RawStage) : Stage :=
  { name := jsOrStr s.name (jsOrStr s.stage "Unknown")
  , timestamp := jsOrStr s.timestamp ""
  , completed := s.completed }

/-- The hard-coded default six-stage workflow used by the catch branch of the
parser (and, before normalization, by the single-delivery branch), with only
"Order Placed" completed at the order's creation time. -/
def defaultStages (createdAt : String) : List Stage :=
  [ ⟨"Order Placed", createdAt, true⟩
  , ⟨"Payment Pending", "", false⟩
  , ⟨"Processing", "", false⟩
  , ⟨"Shipped", "", false⟩
  , ⟨"Delivered", "", false⟩
  , ⟨"Confirmed Received", "", false⟩ ]

/-- The same default six-stage workflow as raw objects, exactly as the
single-delivery branch of the source assigns them to `parsedStages` before
the normalization map runs over them. -/
def defaultRawStages (createdAt : String) : List RawStage :=
  [ ⟨some "Order Placed", none, true, some createdAt, none, none, none⟩
  , ⟨some "Payment Pending", none, false, some "", none, none, none⟩
  , ⟨some "Processing", none, false, some "", none, none, none⟩
  , ⟨some "Shipped", none, false, some "", none, none, none⟩
  , ⟨some "Delivered", none, false, some "", none, none, none⟩
  , ⟨some "Confirmed Received", none, false, some "", none, none, none⟩ ]

/-- Result of the stage-parsing block: the stage list plus the side-channel
delivery info extracted from it. -/
structure ParseResult where
  stages : List Stage
  deliveryAddress : String
  instructions : String
  deriving Repr, DecidableEq

/-- The `else` path of the parser: keep the decoded list, scan it for the
first entry with a truthy `address` to extract delivery info, then normalize
every entry. -/
def otherStagesBranch (entries : List RawStage) : ParseResult :=
  let delivery := entries.find? (fun s => jsTruthy s.address)
  { stages := entries.map normalizeStage
  , deliveryAddress := match delivery with
      | some d => jsOrStr d.address ""
      | none => ""
  , instructions := match delivery with
      | some d => jsOrStr d.instructions ""
      | none => "" }

/-- The branch on a successfully decoded list: a single entry tagged
`stage === 'delivery'` is replaced by the default workflow with its
`address`/`instructions` extracted; every other shape goes through
`otherStagesBranch`. -/
def parseDecodedList (entries : List RawStage) (createdAt : String) : ParseResult :=
  match entries with
  | [e] =>
    if e.stage = some "delivery" then
      { stages := (defaultRawStages createdAt).map normalizeStage
      , deliveryAddress := jsOrStr e.address ""
      , instructions := jsOrStr e.instructions "" }
    else otherStagesBranch [e]
  | _ => otherStagesBranch entries

/-- The stage-parsing block of `queryFn` in `TrackOrder.tsx`: an absent
column is replaced by the empty-array string before decoding (so it decodes
to an empty list), a decode failure falls to the catch branch returning the
default workflow, and a decoded list is dispatched on its shape. -/
def parseStages (raw : RawStagesField) (createdAt : String) : ParseResult :=
  match raw with
  | .absent => parseDecodedList [] createdAt
  | .malformed => ⟨defaultStages createdAt, "", ""⟩
  | .decoded entries => parseDecodedList entries createdAt

/-- The stage payload `handlePlaceOrder` in `Checkout.tsx` persists for every
new order: a single delivery-tagged record carrying the delivery form. -/
def deliveryStages (address instructions : String) : List RawStage :=
  [⟨none, some "delivery", false, none, some address, some instructions, some "pending"⟩]

example : (parseStages RawStagesField.absent "t0").stages = [] := rfl
example : parseStages RawStagesField.malformed "t0" = ⟨defaultStages "t0", "", ""⟩ := rfl
example : parseStages (RawStagesField.decoded (deliveryStages "X" "ring bell")) "t0" =
    ⟨defaultStages "t0", "X", "ring bell"⟩ := by decide

/-! ## OrderStageMachine -/

/-- The order shape `queryFn` returns to the view (the fields the stage
operations read). -/
structure Order where
  id : String
  user_id : String
  status : String
  stages : List Stage
  deriving Repr, DecidableEq

/-- The stored `orders` row as the mutation operations see it. -/
structure StoredOrder where
  id : String
  user_id : String
  status : String
  stages : RawStagesField
  created_at : String
  deriving Repr, DecidableEq

/-- The body of the Supabase `update` issued by a stage operation. -/
structure UpdateReq where
  status : String
  stages : List Stage
  deriving Repr, DecidableEq

/-- JavaScript `stages.findIndex(s => !s.completed)`, with `none` for `-1`. -/
def findIncompleteIdx : List Stage → Option ℕ
  | [] => none
  | s :: rest => if !s.completed then some 0 else (findIncompleteIdx rest).map (· + 1)

/-- `advanceStage` from `TrackOrder.tsx` (lines 218-240), as the update it
sends to storage: locate the first incomplete stage; when it exists and is
not the last stage, mark it completed with `now` and set the status to the
following stage's name; otherwise issue no update. -/
def advanceStage (stages : List Stage) (now : String) : Option UpdateReq :=
  match findIncompleteIdx stages with
  | none => none
  | some i =>
    if i < stages.length - 1 then
      match stages[i]? with
      | none => none
      | some cur =>
        let updated := stages.set i { cur with completed := true, timestamp := now }
        match updated[i + 1]? with
        | none => none
        | some nxt => some ⟨nxt.name, updated⟩
    else none

/-- `confirmReceipt` from `TrackOrder.tsx` (lines 242-263), as the update it
sends to storage: return early when the last stage is already completed;
otherwise mark the last stage completed with `now` and set the status to
"Confirmed Received". (On an empty stage list the source throws while
reading the last element; that is modelled as no update.) -/
def confirmReceipt (stages : List Stage) (now : String) : Option UpdateReq :=
  match stages[stages.length - 1]? with
  | none => none
  | some last =>
    if last.completed then none
    else
      some ⟨"Confirmed Received",
        stages.set (stages.length - 1) { last with completed := true, timestamp := now }⟩

/-- Gate of the "Confirm Received" button (`TrackOrder.tsx` lines 414-421):
rendered only when the last stage is named "Delivered" and not completed. -/
def confirmButtonVisible (stages : List Stage) : Bool :=
  match stages[stages.length - 1]? with
  | none => false
  | some last => last.name = "Delivered" && !last.completed

/-! ## Fetch-then-mutate flow and the storage boundary -/

/-- `queryFn` of the order query in `TrackOrder.tsx` (lines 62-187), reduced
to its checks and stage parsing: missing order id, missing session, missing
user, missing row, and ownership are rejected in this order, each with the
error message thrown by the source. -/
def queryFn (orderId : Option String) (hasSession : Bool) (userId : Option String)
    (fetched : Option StoredOrder) : Except String Order :=
  match orderId with
  | none => .error "No order ID provided"
  | some _ =>
    if !hasSession then .error "Please sign in"
    else
      match userId with
      | none => .error "User not authenticated"
      | some uid =>
        match fetched with
        | none => .error "Order not found"
        | some rec =>
          if rec.user_id ≠ uid then .error "Access denied"
          else
            let pr := parseStages rec.stages rec.created_at
            .ok ⟨rec.id, rec.user_id, rec.status, pr.stages⟩

/-- Serialization of a canonical stage back into the raw shape stored by
`JSON.stringify` of the updated stage objects. -/
def stageToRaw (s : Stage) : RawStage :=
  ⟨some s.name, none, s.completed, some s.timestamp, none, none, none⟩

/-- The storage-boundary conditional update:
`.update({status, stages}).eq('id', oid).eq('user_id', uid)` touches the row
only when both conditions hold. -/
def storeUpdate (rec : StoredOrder) (oid uid : String) (req : UpdateReq) : StoredOrder :=
  if rec.id = oid ∧ rec.user_id = uid then
    { rec with status := req.status, stages := .decoded (req.stages.map stageToRaw) }
  else rec

/-- A full advance attempt through the view: fetch (with its checks), then
run `advanceStage` on the parsed order and apply any resulting update at the
storage boundary. Returns the resulting stored row and the surfaced error,
if any. -/
def attemptAdvance (oid : String) (hasSession : Bool) (uid : String) (rec : StoredOrder)
    (now : String) : StoredOrder × Option String :=
  match queryFn (some oid) hasSession (some uid) (some rec) with
  | .error e => (rec, some e)
  | .ok order =>
    match advanceStage order.stages now with
    | none => (rec, none)
    | some req => (storeUpdate rec oid uid req, none)

/-- A full confirm-receipt attempt through the view, mirroring
`attemptAdvance`. -/
def attemptConfirm (oid : String) (hasSession : Bool) (uid : String) (rec : StoredOrder)
    (now : String) : StoredOrder × Option String :=
  match queryFn (some oid) hasSession (some uid) (some rec) with
  | .error e => (rec, some e)
  | .ok order =>
    match confirmReceipt order.stages now with
    | none => (rec, none)
    | some req => (storeUpdate rec oid uid req, none)

/-- One stage operation together with the outcome of its persistence write
(`writeOk = false` models a failed Supabase update). -/
inductive StageOp where
  | advanceOp (now : String) (writeOk : Bool)
  | confirmOp (now : String) (writeOk : Bool)
  deriving Repr, DecidableEq

/-- Effect of one operation on the canonical (stored) stage list: a failed
write leaves the store unchanged, since the source only refetches on
success and never applies the optimistic list locally. -/
def applyStageOp (stages : List Stage) : StageOp → List Stage
  | .advanceOp now ok =>
    match advanceStage stages now with
    | none => stages
    | some req => if ok then req.stages else stages
  | .confirmOp now ok =>
    match confirmReceipt stages now with
    | none => stages
    | some req => if ok then req.stages else stages

/-- A sequence of stage operations applied to the canonical stage list. -/
def runStageOps (stages : List Stage) (ops : List StageOp) : List Stage :=
  ops.foldl applyStageOp stages

/-- Lexicographic comparison of character lists; on equal-length ISO-8601
timestamps this is chronological order. -/
def charLe : List Char → List Char → Bool
  | [], _ => true
  | _ :: _, [] => false
  | a :: as, b :: bs => if a < b then true else if a = b then charLe as bs else false

/-- Timestamp order on the ISO strings stored in stages. -/
def tsLe (a b : String) : Bool := charLe a.data b.data

/-- The monotone-timestamp part of the spec invariant: completed stages
carry non-decreasing timestamps in stage order. -/
def completedTimestampsMonotone (stages : List Stage) : Prop :=
  ∀ (i j : ℕ) (si sj : Stage), i < j → stages[i]? = some si → stages[j]? = some sj →
    si.completed = true → sj.completed = true → tsLe si.timestamp sj.timestamp = true

example : advanceStage (defaultStages "t0") "t1" =
    some ⟨"Processing",
      [⟨"Order Placed", "t0", true⟩, ⟨"Payment Pending", "t1", true⟩,
       ⟨"Processing", "", false⟩, ⟨"Shipped", "", false⟩,
       ⟨"Delivered", "", false⟩, ⟨"Confirmed Received", "", false⟩]⟩ := rfl
example : confirmReceipt (defaultStages "t0") "t1" =
    some ⟨"Confirmed Received",
      [⟨"Order Placed", "t0", true⟩, ⟨"Payment Pending", "", false⟩,
       ⟨"Processing", "", false⟩, ⟨"Shipped", "", false⟩,
       ⟨"Delivered", "", false⟩, ⟨"Confirmed Received", "t1", true⟩]⟩ := rfl
example : advanceStage [⟨"a", "x", true⟩] "t1" = none := rfl

/-! ## Helper lemmas -/

theorem jsOrStr_some_empty (s : String) : jsOrStr (some s) "" = s := by
  by_cases h : s = "" <;> simp [jsOrStr, h]

theorem map_normalize_defaultRawStages (t : String) :
    (defaultRawStages t).map normalizeStage = defaultStages t := by
  by_cases h : t = "" <;>
    simp [defaultRawStages, defaultStages, normalizeStage, jsOrStr, h]

theorem findIncompleteIdx_some {stages : List Stage} {i : ℕ}
    (h : findIncompleteIdx stages = some i) :
    ∃ s, stages[i]? = some s ∧ s.completed = false := by
  induction stages generalizing i with
  | nil => simp [findIncompleteIdx] at h
  | cons s rest ih =>
    rw [findIncompleteIdx] at h
    by_cases hc : s.completed
    · simp only [hc, Bool.not_true, Bool.false_eq_true, if_false] at h
      rw [Option.map_eq_some'] at h
      obtain ⟨j, hj, hji⟩ := h
      obtain ⟨t, ht, htc⟩ := ih hj
      subst hji
      exact ⟨t, by rw [List.getElem?_cons_succ]; exact ht, htc⟩
    · simp only [hc, Bool.not_false, if_true, Option.some_inj] at h
      subst h
      exact ⟨s, List.getElem?_cons_zero, by simpa using hc⟩

theorem findIncompleteIdx_none {stages : List Stage}
    (h : findIncompleteIdx stages = none) : ∀ s ∈ stages, s.completed = true := by
  induction stages with
  | nil => intro s hs; simp at hs
  | cons s rest ih =>
    intro t ht
    rw [findIncompleteIdx] at h
    by_cases hc : s.completed
    · simp only [hc, Bool.not_true, Bool.false_eq_true, if_false, Option.map_eq_none'] at h
      rcases List.mem_cons.mp ht with h1 | h2
      · exact h1 ▸ hc
      · exact ih h t h2
    · simp [hc] at h

theorem advanceStage_eq_some {stages : List Stage} {now : String} {req : UpdateReq}
    (h : advanceStage stages now = some req) :
    ∃ i cur, findIncompleteIdx stages = some i ∧ i < stages.length - 1 ∧
      stages[i]? = some cur ∧ cur.completed = false ∧
      req.stages = stages.set i { cur with completed := true, timestamp := now } ∧
      (stages[i + 1]?).map Stage.name = some req.status := by
  simp only [advanceStage] at h
  split at h
  · exact absurd h (by simp)
  · rename_i i hf
    split at h
    · rename_i hlt
      split at h
      · exact absurd h (by simp)
      · rename_i cur hg
        split at h
        · exact absurd h (by simp)
        · rename_i nxt hn
          obtain ⟨t, ht, htc⟩ := findIncompleteIdx_some hf
          rw [hg, Option.some_inj] at ht
          subst ht
          obtain rfl : UpdateReq.mk nxt.name
              (stages.set i { cur with completed := true, timestamp := now }) = req :=
            Option.some_inj.mp h
          refine ⟨i, cur, hf, hlt, hg, htc, rfl, ?_⟩
          rw [List.getElem?_set_ne (by omega)] at hn
          simp [hn]
    · exact absurd h (by simp)

theorem advanceStage_eq_none {stages : List Stage} {now : String}
    (h : findIncompleteIdx stages = none) : advanceStage stages now = none := by
  simp only [advanceStage, h]

theorem confirmReceipt_eq_some {stages : List Stage} {now : String} {req : UpdateReq}
    (h : confirmReceipt stages now = some req) :
    ∃ last, stages[stages.length - 1]? = some last ∧ last.completed = false ∧
      req.status = "Confirmed Received" ∧
      req.stages = stages.set (stages.length - 1)
        { last with completed := true, timestamp := now } := by
  simp only [confirmReceipt] at h
  split at h
  · exact absurd h (by simp)
  · rename_i last hg
    split at h
    · exact absurd h (by simp)
    · rename_i hc
      obtain rfl : UpdateReq.mk "Confirmed Received"
          (stages.set (stages.length - 1) { last with completed := true, timestamp := now })
          = req := Option.some_inj.mp h
      exact ⟨last, hg, by simp at hc; exact hc, rfl, rfl⟩

theorem mem_removeFirst {c : Char} {pat l : List Char}
    (h : c ∈ removeFirst pat l) : c ∈ l := by
  induction l with
  | nil => simp [removeFirst] at h
  | cons a rest ih =>
    rw [removeFirst] at h
    by_cases hm : matchesAt pat (a :: rest) = true
    · rw [if_pos hm] at h
      exact List.mem_of_mem_drop h
    · rw [if_neg hm] at h
      rcases List.mem_cons.mp h with h1 | h2
      · exact h1 ▸ List.mem_cons_self a rest
      · exact List.mem_cons_of_mem _ (ih h2)

theorem parseFloatQ_no_digit {cs : List Char} (h : ∀ c ∈ cs, c.isDigit = false) :
    parseFloatQ cs = none := by
  have htake : ∀ ds : List Char, (∀ c ∈ ds, c.isDigit = false) →
      ds.takeWhile Char.isDigit = [] := by
    intro ds hds
    cases ds with
    | nil => rfl
    | cons d rest => simp [List.takeWhile_cons, hds d (List.mem_cons_self d rest)]
  have hdrop : cs.dropWhile Char.isDigit = cs := by
    cases cs with
    | nil => rfl
    | cons d rest => simp [List.dropWhile_cons, h d (List.mem_cons_self d rest)]
  rw [parseFloatQ, hdrop, htake cs h]
  cases cs with
  | nil => rfl
  | cons d rest =>
    by_cases hd : d = '.'
    · subst hd
      have hfrac : rest.takeWhile Char.isDigit = [] :=
        htake rest (fun c hc => h c (List.mem_cons_of_mem _ hc))
      simp [hfrac]
    · have hfrac : (match (d :: rest : List Char) with
          | '.' :: rest2 => rest2.takeWhile Char.isDigit
          | _ => ([] : List Char)) = [] := by
        cases rest <;> simp_all
      simp [hfrac]

/-- Computation form of `getUnitPrice` on a non-empty tier list: the result
is the price of the first tier found by `find?`, or the base price. -/
theorem getUnitPrice_find (base : ℚ) (qty : ℤ) (tiers : List PricingTier) (h : tiers ≠ []) :
    getUnitPrice ⟨base, qty, some tiers⟩ =
      ((tiers.find? (fun t => decide (t.min_quantity ≤ qty))).map PricingTier.price).getD base := by
  simp only [getUnitPrice]
  rw [if_neg (by simpa using h)]
  cases tiers.find? (fun t => decide (t.min_quantity ≤ qty)) <;> simp

/-! ## Claims -/

/-- C1 (counterexample): the claim states that for tiers
`[{minQuantity 5, price 90}, {minQuantity 10, price 80}]` and base price 100,
quantity 10 resolves to 80 (the tier with the largest qualifying
`minQuantity`). The code instead returns 90: `find` picks the first
qualifying tier in array order, which here is the `minQuantity 5` tier. -/
theorem getUnitPrice_largest_minQuantity_cex :
    getUnitPrice ⟨100, 10, some [⟨5, 90⟩, ⟨10, 80⟩]⟩ = 90 ∧
    getUnitPrice ⟨100, 10, some [⟨5, 90⟩, ⟨10, 80⟩]⟩ ≠ 80 := by
  have h90 : getUnitPrice ⟨100, 10, some [⟨5, 90⟩, ⟨10, 80⟩]⟩ = (90 : ℚ) := rfl
  exact ⟨h90, by rw [h90]; norm_num⟩

/-- C1 (amended): `getUnitPrice` returns the price of the *first tier in
array order* whose `minQuantity ≤ quantity` (the largest qualifying
`minQuantity` only when the array is sorted in descending `minQuantity`
order); if no tier qualifies, or there are no tiers, it returns the base
price. For tiers `[{5, 90}, {10, 80}]` and base 100: quantity 1 gives 100,
quantity 5 gives 90, quantity 9 gives 90, and quantity 10 gives 90 (not 80). -/
theorem getUnitPrice_first_qualifying (base : ℚ) (qty : ℤ) (pre post : List PricingTier)
    (t : PricingTier) (hpre : ∀ u ∈ pre, ¬(u.min_quantity ≤ qty))
    (ht : t.min_quantity ≤ qty) :
    getUnitPrice ⟨base, qty, some (pre ++ t :: post)⟩ = t.price
    ∧ (∀ tiers : List PricingTier, (∀ u ∈ tiers, ¬(u.min_quantity ≤ qty)) →
        getUnitPrice ⟨base, qty, some tiers⟩ = base)
    ∧ getUnitPrice ⟨base, qty, none⟩ = base
    ∧ getUnitPrice ⟨100, 1, some [⟨5, 90⟩, ⟨10, 80⟩]⟩ = 100
    ∧ getUnitPrice ⟨100, 5, some [⟨5, 90⟩, ⟨10, 80⟩]⟩ = 90
    ∧ getUnitPrice ⟨100, 9, some [⟨5, 90⟩, ⟨10, 80⟩]⟩ = 90
    ∧ getUnitPrice ⟨100, 10, some [⟨5, 90⟩, ⟨10, 80⟩]⟩ = 90 := by
  refine ⟨?_, ?_, rfl, rfl, rfl, rfl, rfl⟩
  · rw [getUnitPrice_find _ _ _ (by simp)]
    have hpre2 : pre.find? (fun u => decide (u.min_quantity ≤ qty)) = none :=
      List.find?_eq_none.mpr (fun u hu => by simpa using hpre u hu)
    rw [List.find?_append, hpre2, Option.none_or, List.find?_cons_of_pos _ (by simpa using ht)]
    rfl
  · intro tiers htiers
    cases tiers with
    | nil => rfl
    | cons u rest =>
      rw [getUnitPrice_find _ _ _ (by simp)]
      rw [List.find?_eq_none.mpr (fun v hv => by simpa using htiers v hv)]
      rfl

/-- Witness for C1 (amended): with tiers listed as `[{10, 80}, {5, 90}]` and
quantity 7, the first (and only) qualifying tier is `{5, 90}`. -/
theorem getUnitPrice_first_qualifying_witness :
    getUnitPrice ⟨100, 7, some ([⟨10, 80⟩] ++ ⟨5, 90⟩ :: [])⟩ = 90 :=
  (getUnitPrice_first_qualifying 100 7 [⟨10, 80⟩] [] ⟨5, 90⟩ (by decide) (by decide)).1

/-- C2 (counterexample): an absent `stages` value is replaced by the string
of an empty array before decoding, so it parses to the empty stage list —
not to the default six-stage workflow the claim promises. -/
theorem parseStages_absent_cex :
    (parseStages RawStagesField.absent "2024-01-01T00:00:00Z").stages = [] ∧
    (parseStages RawStagesField.absent "2024-01-01T00:00:00Z").stages ≠
      defaultStages "2024-01-01T00:00:00Z" :=
  ⟨rfl, by decide⟩

/-- C2 (amended): when the raw stages value fails to decode as structured
data, the parser returns the default six-stage workflow with only "Order
Placed" completed at the order's creation time, and no delivery info,
without raising; when the value is *absent*, it is replaced by an
empty-array encoding and the parser returns the empty stage list instead. -/
theorem parseStages_fallbacks (t0 : String) :
    parseStages RawStagesField.malformed t0 = ⟨defaultStages t0, "", ""⟩
    ∧ parseStages RawStagesField.absent t0 = ⟨[], "", ""⟩ :=
  ⟨rfl, rfl⟩

/-- C3 (counterexample): the claim states `confirmReceipt` succeeds only
when the last stage is named "Delivered", and rejects (with no mutation)
while an earlier stage is incomplete. On the default workflow — whose last
stage is named "Confirmed Received" and whose stages 1..5 are all
incomplete — `confirmReceipt` nevertheless issues an update marking the
last stage completed. -/
theorem confirmReceipt_unguarded_cex :
    ∃ req, confirmReceipt (defaultStages "2024-01-01") "2024-01-02" = some req ∧
      ((defaultStages "2024-01-01")[1]?).map Stage.completed = some false ∧
      ((defaultStages "2024-01-01")[5]?).map Stage.name = some "Confirmed Received" ∧
      (req.stages[5]?).map Stage.completed = some true ∧
      req.status = "Confirmed Received" := by
  refine ⟨_, rfl, ?_, ?_, ?_, ?_⟩ <;> decide

/-- C3 (amended): `confirmReceipt` rejects (returns early, no update) only
when the last stage is already completed. Whenever the last stage is
incomplete — regardless of its name and of earlier incomplete stages — it
issues an update marking the last stage completed with the current time,
leaving every other stage unchanged, and setting the status to "Confirmed
Received". (The "Delivered"-name condition exists only in the UI gating of
the Confirm Received button, `confirmButtonVisible`.) -/
theorem confirmReceipt_guard (stages : List Stage) (now : String) (last : Stage)
    (hlast : stages[stages.length - 1]? = some last) :
    (last.completed = true → confirmReceipt stages now = none)
    ∧ (last.completed = false →
        ∃ req, confirmReceipt stages now = some req ∧
          req.status = "Confirmed Received" ∧
          req.stages[stages.length - 1]? =
            some { last with completed := true, timestamp := now } ∧
          (∀ j : ℕ, j ≠ stages.length - 1 → req.stages[j]? = stages[j]?)) := by
  constructor
  · intro hc
    simp [confirmReceipt, hlast, hc]
  · intro hc
    refine ⟨⟨"Confirmed Received",
      stages.set (stages.length - 1) { last with completed := true, timestamp := now }⟩,
      ?_, rfl, ?_, ?_⟩
    · simp [confirmReceipt, hlast, hc]
    · obtain ⟨hlen, -⟩ := List.getElem?_eq_some.mp hlast
      simp [List.getElem?_set, hlen]
    · intro j hj
      exact List.getElem?_set_ne (Ne.symm hj)

/-- Witness for C3 (amended): on the default workflow (last stage
"Confirmed Received", incomplete), `confirmReceipt` completes the last
stage and leaves the others unchanged. -/
theorem confirmReceipt_guard_witness :
    ∃ req, confirmReceipt (defaultStages "t0") "t1" = some req ∧
      req.status = "Confirmed Received" ∧
      req.stages[(defaultStages "t0").length - 1]? =
        some ⟨"Confirmed Received", "t1", true⟩ ∧
      (∀ j : ℕ, j ≠ (defaultStages "t0").length - 1 →
        req.stages[j]? = (defaultStages "t0")[j]?) :=
  (confirmReceipt_guard (defaultStages "t0") "t1" ⟨"Confirmed Received", "", false⟩
    (by decide)).2 rfl

/-- Forward computation of `advanceStage` when the first incomplete stage
exists and is not last. -/
theorem advanceStage_eq_of (stages : List Stage) (now : String) (i : ℕ) (cur nxt : Stage)
    (hf : findIncompleteIdx stages = some i) (hlt : i < stages.length - 1)
    (hg : stages[i]? = some cur)
    (hnx : (stages.set i { cur with completed := true, timestamp := now })[i + 1]? = some nxt) :
    advanceStage stages now =
      some ⟨nxt.name, stages.set i { cur with completed := true, timestamp := now }⟩ := by
  simp only [advanceStage, hf, hg, hnx, if_pos hlt]

/-- C4: when the current stage (first incomplete) has index `i` below the
last index, `advanceStage` issues an update that marks stage `i` completed
with the current time, leaves every other stage unchanged, and sets the
status to stage `i+1`'s name; when the order is terminal (no incomplete
stage) it issues no update at all. -/
theorem advanceStage_spec (stages : List Stage) (now : String) :
    (∀ i : ℕ, findIncompleteIdx stages = some i → i < stages.length - 1 →
      ∃ req, advanceStage stages now = some req ∧
        req.stages[i]? =
          (stages[i]?).map (fun s => { s with completed := true, timestamp := now }) ∧
        (∀ j : ℕ, j ≠ i → req.stages[j]? = stages[j]?) ∧
        (stages[i + 1]?).map Stage.name = some req.status)
    ∧ (findIncompleteIdx stages = none → advanceStage stages now = none) := by
  constructor
  · intro i hf hlt
    obtain ⟨cur, hg, hcur⟩ := findIncompleteIdx_some hf
    obtain ⟨hilen, -⟩ := List.getElem?_eq_some.mp hg
    have hi1 : i + 1 < stages.length := by omega
    have hup : (stages.set i { cur with completed := true, timestamp := now })[i + 1]? =
        stages[i + 1]? := List.getElem?_set_ne (by omega)
    obtain ⟨nxt, hnx⟩ : ∃ nxt, stages[i + 1]? = some nxt :=
      ⟨stages[i + 1], (List.getElem?_eq_some).mpr ⟨hi1, rfl⟩⟩
    refine ⟨⟨nxt.name, stages.set i { cur with completed := true, timestamp := now }⟩,
      advanceStage_eq_of stages now i cur nxt hf hlt hg (hup.trans hnx), ?_, ?_, ?_⟩
    · rw [hg]
      simp [List.getElem?_set, hilen]
    · intro j hj
      exact List.getElem?_set_ne (Ne.symm hj)
    · rw [hnx]
      rfl
  · intro hf
    exact advanceStage_eq_none hf

/-- Witness for C4: on the default workflow the current stage is index 1
("Payment Pending"); advancing completes it and sets the status to
"Processing". -/
theorem advanceStage_spec_witness :
    ∃ req, advanceStage (defaultStages "t0") "t1" = some req ∧
      req.stages[1]? =
        ((defaultStages "t0")[1]?).map (fun s => { s with completed := true, timestamp := "t1" }) ∧
      (∀ j : ℕ, j ≠ 1 → req.stages[j]? = (defaultStages "t0")[j]?) ∧
      ((defaultStages "t0")[2]?).map Stage.name = some req.status :=
  (advanceStage_spec (defaultStages "t0") "t1").1 1 (by decide) (by decide)

/-- C5: when decoding yields exactly one entry tagged `stage = "delivery"`,
the parser extracts the entry's `address` and `instructions` as delivery
info (JavaScript-or with the empty string) and substitutes the default
six-stage workflow, with "Order Placed" completed at the order's creation
time. -/
theorem parseStages_single_delivery (e : RawStage) (t0 : String)
    (h : e.stage = some "delivery") :
    parseStages (RawStagesField.decoded [e]) t0 =
      ⟨defaultStages t0, jsOrStr e.address "", jsOrStr e.instructions ""⟩ := by
  simp only [parseStages, parseDecodedList, if_pos h, map_normalize_defaultRawStages]

/-- Witness for C5: `parse([{stage:"delivery", address:"X"}], t0)` yields the
six-stage default and delivery address "X". -/
theorem parseStages_single_delivery_witness :
    parseStages (RawStagesField.decoded
      [⟨none, some "delivery", false, none, some "X", none, none⟩]) "t0" =
      ⟨defaultStages "t0", "X", ""⟩ := by
  rw [parseStages_single_delivery _ _ rfl]
  decide

/-- C6: the price parser extracts the numeric magnitude of a free-form
price string by stripping non-digit, non-decimal-point characters:
"KES 1,200.50" yields 1200.50, and any input containing no digit at all
(such as "n/a") yields 0 rather than an error. -/
theorem parsePriceToNumber_spec :
    parsePriceToNumber (PriceInput.str "KES 1,200.50") = 2401 / 2
    ∧ parsePriceToNumber (PriceInput.str "n/a") = 0
    ∧ ∀ s : String, (∀ c ∈ s.data, c.isDigit = false) →
        parsePriceToNumber (PriceInput.str s) = 0 := by
  refine ⟨?_, rfl, ?_⟩
  · have h : parsePriceToNumber (PriceInput.str "KES 1,200.50") =
        ((1200 : ℕ) : ℚ) + ((50 : ℕ) : ℚ) / (10 : ℚ) ^ 2 := rfl
    rw [h]
    norm_num
  · intro s hs
    have hclean : ∀ c ∈ (removeFirst "KES ".data s.data).filter isDigitOrDot,
        c.isDigit = false := by
      intro c hc
      rw [List.mem_filter] at hc
      exact hs c (mem_removeFirst hc.1)
    simp only [parsePriceToNumber, parseFloatQ_no_digit hclean, Option.getD_none]

/-- Witness for C6: a digit-free price string resolves to 0. -/
theorem parsePriceToNumber_spec_witness :
    parsePriceToNumber (PriceInput.str "TBD") = 0 :=
  parsePriceToNumber_spec.2.2 "TBD" (by decide)

/-- C7: a stage transition attempted by a caller whose user id differs from
the order's owner id fails the ownership check of the fetch with the
"Access denied" error before any update is built, and the stored record is
returned unchanged — for both `advanceStage` and `confirmReceipt` attempts. -/
theorem transition_ownership (oid uid now : String) (rec : StoredOrder)
    (h : rec.user_id ≠ uid) :
    attemptAdvance oid true uid rec now = (rec, some "Access denied")
    ∧ attemptConfirm oid true uid rec now = (rec, some "Access denied") := by
  constructor <;> simp [attemptAdvance, attemptConfirm, queryFn, h]

/-- Witness for C7: a non-owner ("mallory") attempting to advance Alice's
order gets "Access denied" and the stored row is unchanged. -/
theorem transition_ownership_witness :
    attemptAdvance "o1" true "mallory"
      ⟨"o1", "alice", "Order Placed", RawStagesField.absent, "t0"⟩ "t1" =
      (⟨"o1", "alice", "Order Placed", RawStagesField.absent, "t0"⟩, some "Access denied") :=
  (transition_ownership "o1" "mallory" "t1" _ (by decide)).1

/-- C8 (counterexample): the timestamps of completed stages are *not*
non-decreasing in stage order on every reachable state: starting from the
default workflow (created 2024-01-01), `confirmReceipt` at 2024-01-02
completes the last stage while stages 1..4 are still incomplete, and a
subsequent `advanceStage` at 2024-01-03 completes stage 1 with a *later*
timestamp than stage 5's. -/
theorem stage_ops_timestamps_cex :
    ¬ completedTimestampsMonotone
      (runStageOps (defaultStages "2024-01-01")
        [StageOp.confirmOp "2024-01-02" true, StageOp.advanceOp "2024-01-03" true]) := by
  intro h
  have h2 := h 1 5 ⟨"Payment Pending", "2024-01-03", true⟩
    ⟨"Confirmed Received", "2024-01-02", true⟩
    (by decide) (by decide) (by decide) rfl rfl
  exact absurd h2 (by decide)

/-- C8 (amended): completion is monotonic — no operation (advance or
confirm-receipt, successful or not) ever turns a stage's `completed` flag
from true back to false — and a failed persistence write leaves the
canonical stage list entirely unchanged. (The claim's further assertion
that completed stages carry non-decreasing timestamps in stage order does
not hold, since `confirmReceipt` can complete the last stage while earlier
stages are still incomplete.) -/
theorem stage_ops_monotone_completion (stages : List Stage) (op : StageOp) (i : ℕ) (si : Stage)
    (hi : stages[i]? = some si) (hc : si.completed = true) :
    (∃ ti, (applyStageOp stages op)[i]? = some ti ∧ ti.completed = true)
    ∧ ∀ now : String, applyStageOp stages (StageOp.advanceOp now false) = stages
        ∧ applyStageOp stages (StageOp.confirmOp now false) = stages := by
  constructor
  · cases op with
    | advanceOp now ok =>
      cases ha : advanceStage stages now with
      | none => exact ⟨si, by simp [applyStageOp, ha, hi], hc⟩
      | some req =>
        cases ok with
        | false => exact ⟨si, by simp [applyStageOp, ha, hi], hc⟩
        | true =>
          obtain ⟨j, cur, hf, hlt, hg, hcur, hset, -⟩ := advanceStage_eq_some ha
          by_cases hij : i = j
          · subst hij
            rw [hi, Option.some_inj] at hg
            rw [← hg] at hcur
            rw [hcur] at hc
            exact absurd hc (by simp)
          · refine ⟨si, ?_, hc⟩
            simp [applyStageOp, ha, hset, List.getElem?_set_ne (fun hh => hij hh.symm), hi]
    | confirmOp now ok =>
      cases ha : confirmReceipt stages now with
      | none => exact ⟨si, by simp [applyStageOp, ha, hi], hc⟩
      | some req =>
        cases ok with
        | false => exact ⟨si, by simp [applyStageOp, ha, hi], hc⟩
        | true =>
          obtain ⟨last, hg, hlast, -, hset⟩ := confirmReceipt_eq_some ha
          by_cases hij : i = stages.length - 1
          · subst hij
            rw [hi, Option.some_inj] at hg
            rw [← hg] at hlast
            rw [hlast] at hc
            exact absurd hc (by simp)
          · refine ⟨si, ?_, hc⟩
            simp [applyStageOp, ha, hset, List.getElem?_set_ne (fun hh => hij hh.symm), hi]
  · intro now
    constructor
    · cases ha : advanceStage stages now <;> simp [applyStageOp, ha]
    · cases hb : confirmReceipt stages now <;> simp [applyStageOp, hb]

/-- Witness for C8 (amended): advancing the default workflow keeps stage 0
("Order Placed") completed. -/
theorem stage_ops_monotone_completion_witness :
    ∃ ti, (applyStageOp (defaultStages "t0") (StageOp.advanceOp "t1" true))[0]? = some ti ∧
      ti.completed = true :=
  (stage_ops_monotone_completion (defaultStages "t0") (StageOp.advanceOp "t1" true) 0
    ⟨"Order Placed", "t0", true⟩ (by decide) rfl).1

/-- C9: checkout persists the stages of every new order as the single
delivery-tagged record built from the delivery form, and parsing exactly
that record takes the single-delivery branch: the result is the default
six-stage workflow (stage 0 completed at the order's creation time) with
the delivery address and instructions equal to the values entered at
checkout. -/
theorem checkout_parse_roundtrip (addr instr t0 : String) :
    parseStages (RawStagesField.decoded (deliveryStages addr instr)) t0 =
      ⟨defaultStages t0, addr, instr⟩ := by
  simp only [deliveryStages, parseStages, parseDecodedList]
  rw [if_pos trivial, map_normalize_defaultRawStages]
  simp [jsOrStr_some_empty]

/-- C10: `advanceStage` never touches the final stage: whenever it issues
an update, the last entry of the updated stage list — in particular its
`completed` flag — is exactly the last entry of the input list, because the
guard requires the modified index to be strictly below the last index. -/
theorem advanceStage_preserves_last (stages : List Stage) (now : String) (req : UpdateReq)
    (h : advanceStage stages now = some req) :
    req.stages[req.stages.length - 1]? = stages[stages.length - 1]?
    ∧ (req.stages[req.stages.length - 1]?).map Stage.completed =
      (stages[stages.length - 1]?).map Stage.completed := by
  obtain ⟨i, cur, hf, hlt, hg, hcur, hset, -⟩ := advanceStage_eq_some h
  have h1 : req.stages[req.stages.length - 1]? = stages[stages.length - 1]? := by
    rw [hset, List.length_set]
    exact List.getElem?_set_ne (by omega)
  exact ⟨h1, by rw [h1]⟩

/-- Witness for C10: advancing the default workflow leaves the last stage
("Confirmed Received", incomplete) untouched. -/
theorem advanceStage_preserves_last_witness :
    ∃ req, advanceStage (defaultStages "t0") "t1" = some req ∧
      req.stages[req.stages.length - 1]? =
        (defaultStages "t0")[(defaultStages "t0").length - 1]? := by
  obtain ⟨req, hreq⟩ : ∃ req, advanceStage (defaultStages "t0") "t1" = some req := ⟨_, rfl⟩
  exact ⟨req, hreq, (advanceStage_preserves_last _ _ _ hreq).1⟩
